import Mathlib

/-!
Verification development for the GraphCaps model core (`model.py`).

The numeric code is embedded shallowly over the real numbers:
tensors become functions out of `Fin`-indexed types, `torch.max` over a
dimension becomes `Finset.sup'`, `F.softmax` becomes the exponential
softmax, and the IEEE `NaN` produced by a softmax whose row is entirely
`-inf` is modelled by an `Option` result (`none` = NaN row).
-/

open scoped BigOperators
open scoped Classical

noncomputable section

namespace GraphCaps

/-- Module-scope constant `epsilon = 1e-11` from `model.py` line 10. -/
def eps : ℝ := 1e-11

/-- Embeds `torch.max(f, dim=-1)[0]` on a nonempty axis: the maximum of `f`. -/
def rowMax {N : ℕ} [NeZero N] (f : Fin N → ℝ) : ℝ :=
  Finset.univ.sup' Finset.univ_nonempty f

/-- Embeds `masks = torch.max(adj, dim=-1, keepdim=True)[0]` (`model.py` line 77):
the validity mask of node `i` in graph `b` is the maximum entry of its
adjacency row. -/
def masks {B N : ℕ} [NeZero N] (adj : Fin B → Fin N → Fin N → ℝ)
    (b : Fin B) (i : Fin N) : ℝ :=
  rowMax (adj b i)

/-- Embeds `number_of_nodes = torch.sum(masks, dim=1, keepdim=True)` (`model.py`
line 78): the sum of the mask values of one graph. -/
def numberOfNodes {B N : ℕ} [NeZero N] (adj : Fin B → Fin N → Fin N → ℝ)
    (b : Fin B) : ℝ :=
  ∑ i, masks adj b i

/-- The set of valid (unmasked) nodes of one graph: those whose mask value
is nonzero. -/
def validSet {N : ℕ} (m : Fin N → ℝ) : Finset (Fin N) :=
  Finset.univ.filter fun i => m i ≠ 0

/-- Denominator of the masked softmax: after `masked_fill(masks.eq(0), -inf)`
the exponential of a masked logit is `exp(-inf) = 0`, so the softmax
denominator is the sum of `exp` over the valid nodes only. -/
def softmaxDenom {N : ℕ} (m l : Fin N → ℝ) : ℝ :=
  ∑ i in validSet m, Real.exp (l i)

/-- Embeds `F.softmax(attn.masked_fill(masks.eq(0), -np.inf), dim=1)` (`model.py`
line 96) for one graph. When every node is masked the float computation is
`0/0 = NaN`; this is modelled by `none`. Otherwise a masked node gets
weight `exp(-inf)/denom = 0` and a valid node gets `exp(l i)/denom`. -/
def maskedSoftmax {N : ℕ} (m l : Fin N → ℝ) : Option (Fin N → ℝ) :=
  if softmaxDenom m l = 0 then none
  else some fun i => if m i = 0 then 0 else Real.exp (l i) / softmaxDenom m l

/-! ## Loss engine (`Model.calculate_loss`, `model.py` lines 108-149)

The class-capsule input is a `B × C × D` tensor (batch, classes, capsule
dimension), the label a `Fin C` per graph, the reconstruction target a
`B × R` tensor. The generic-shape semantics of the tensor operations is
embedded; the shapes themselves are treated separately below for the
`squeeze` analysis. -/

/-- Embeds `v_mag = torch.sqrt((capsule_input ** 2).sum(dim=2))` (line 115). -/
def vMag {B C D : ℕ} (x : Fin B → Fin C → Fin D → ℝ) (b : Fin B) (c : Fin C) : ℝ :=
  Real.sqrt (∑ d, x b c d ^ 2)

/-- One-hot label tensor `T_c` built by
`T_c[torch.arange(batch_size), target] = 1` on a zero tensor
(lines 124-125). -/
def Tc {B C : ℕ} (label : Fin B → Fin C) (b : Fin B) (c : Fin C) : ℝ :=
  if c = label b then 1 else 0

/-- Embeds `max_l = torch.max(m_plus - v_mag, zero) ** 2` with `m_plus = 0.9`
(lines 119, 121). -/
def maxL {B C D : ℕ} (x : Fin B → Fin C → Fin D → ℝ) (b : Fin B) (c : Fin C) : ℝ :=
  max ((0.9 : ℝ) - vMag x b c) 0 ^ 2

/-- Embeds `max_r = torch.max(v_mag - m_minus, zero) ** 2` with `m_minus = 0.1`
(lines 120, 122). -/
def maxR {B C D : ℕ} (x : Fin B → Fin C → Fin D → ℝ) (b : Fin B) (c : Fin C) : ℝ :=
  max (vMag x b c - (0.1 : ℝ)) 0 ^ 2

/-- Embeds `L_c = (T_c * max_l + lambda_val * (1.0 - T_c) * max_r).sum(dim=1)`
(lines 126-127). -/
def Lc {B C D : ℕ} (lam : ℝ) (x : Fin B → Fin C → Fin D → ℝ)
    (label : Fin B → Fin C) (b : Fin B) : ℝ :=
  ∑ c, (Tc label b c * maxL x b c + lam * (1 - Tc label b c) * maxR x b c)

/-- Embeds `margin_loss = L_c.mean()` (line 128): sum over the batch divided by
the batch size. -/
def marginLoss {B C D : ℕ} (lam : ℝ) (x : Fin B → Fin C → Fin D → ℝ)
    (label : Fin B → Fin C) : ℝ :=
  (∑ b, Lc lam x label b) / B

/-- Embeds `pred = v_mag.max(dim=1)[1]` (line 116): an index of a class of maximal
capsule norm. -/
def pred {B C D : ℕ} [NeZero C] (x : Fin B → Fin C → Fin D → ℝ) (b : Fin B) : Fin C :=
  ((List.finRange C).argmax (vMag x b)).getD ⟨0, Nat.pos_of_ne_zero (NeZero.ne C)⟩

/-- Embeds `capsule_masked = (capsule_input * T_c.unsqueeze(2)).sum(dim=1)`
(lines 130-132): zero out every class capsule except the true one and sum
over the class axis. -/
def capsuleMasked {B C D : ℕ} (x : Fin B → Fin C → Fin D → ℝ)
    (label : Fin B → Fin C) (b : Fin B) (d : Fin D) : ℝ :=
  ∑ c, x b c d * Tc label b c

/-- Embeds `F.relu`. -/
def reluV (t : ℝ) : ℝ := max t 0

/-- Embeds `torch.sigmoid`. -/
def sigmoidV (t : ℝ) : ℝ := 1 / (1 + Real.exp (-t))

/-- Weights of the two-layer reconstruction decoder
(`reconstruction_layer_1 : D → H`, `reconstruction_layer_2 : H → R`,
`model.py` lines 63-65): each `nn.Linear` is a weight matrix plus a bias. -/
structure DecoderW (D H R : ℕ) where
  W1 : Fin H → Fin D → ℝ
  b1 : Fin H → ℝ
  W2 : Fin R → Fin H → ℝ
  b2 : Fin R → ℝ

/-- Embeds `torch.sigmoid(layer_2(F.relu(layer_1(x))))` (lines 134-135). -/
def decode {D H R : ℕ} (w : DecoderW D H R) (x : Fin D → ℝ) (r : Fin R) : ℝ :=
  sigmoidV (w.b2 r + ∑ j, w.W2 r j * reluV (w.b1 j + ∑ d, w.W1 j d * x d))

/-- Embeds `reconstruction_output` of graph `b` (lines 134-135), decoding the
true-class-masked capsule. -/
def reconstructionOutput {B C D H R : ℕ} (w : DecoderW D H R)
    (x : Fin B → Fin C → Fin D → ℝ) (label : Fin B → Fin C)
    (b : Fin B) (r : Fin R) : ℝ :=
  decode w (capsuleMasked x label b) r

/-- Embeds `neg_indicator = torch.where(reconstructs < 1e-5, 1, 0)` (lines 137-138). -/
def negInd {B R : ℕ} (t : Fin B → Fin R → ℝ) (b : Fin B) (r : Fin R) : ℝ :=
  if t b r < 1e-5 then 1 else 0

/-- Embeds `pos_indicator = 1 - neg_indicator` (line 139). -/
def posInd {B R : ℕ} (t : Fin B → Fin R → ℝ) (b : Fin B) (r : Fin R) : ℝ :=
  1 - negInd t b r

/-- Embeds `reconstructs_max = torch.max(reconstructs, dim=1, keepdim=True)[0]`
(line 140). -/
def reconMax {B R : ℕ} [NeZero R] (t : Fin B → Fin R → ℝ) (b : Fin B) : ℝ :=
  rowMax (t b)

/-- Embeds `reconstruct_value = reconstructs / (reconstructs_max + epsilon)`
(line 141), with the epsilon kept as a parameter `e` (the source fixes
`e = eps = 1e-11`). -/
def reconValue {B R : ℕ} [NeZero R] (e : ℝ) (t : Fin B → Fin R → ℝ)
    (b : Fin B) (r : Fin R) : ℝ :=
  t b r / (reconMax t b + e)

/-- Embeds `diff = (reconstruction_output - reconstruct_value) ** 2` (line 142),
with decoder output `o`. -/
def reconDiff {B R : ℕ} [NeZero R] (e : ℝ) (o t : Fin B → Fin R → ℝ)
    (b : Fin B) (r : Fin R) : ℝ :=
  (o b r - reconValue e t b r) ^ 2

/-- Embeds `neg_loss = torch.max(diff * neg_indicator, dim=-1)[0]` (line 144). -/
def negLossB {B R : ℕ} [NeZero R] (e : ℝ) (o t : Fin B → Fin R → ℝ) (b : Fin B) : ℝ :=
  rowMax fun r => reconDiff e o t b r * negInd t b r

/-- Embeds `pos_loss = torch.max(diff * pos_indicator, dim=-1)[0]` (line 145). -/
def posLossB {B R : ℕ} [NeZero R] (e : ℝ) (o t : Fin B → Fin R → ℝ) (b : Fin B) : ℝ :=
  rowMax fun r => reconDiff e o t b r * posInd t b r

/-- Embeds `reconstruction_loss = torch.mean(pos_loss + neg_loss)` (line 146),
for decoder output `o` and target `t`, epsilon parameter `e`. -/
def reconLossEps {B R : ℕ} [NeZero R] (e : ℝ) (o t : Fin B → Fin R → ℝ) : ℝ :=
  (∑ b, (posLossB e o t b + negLossB e o t b)) / B

/-- The reconstruction loss exactly as in the source (epsilon `eps`). -/
def reconLoss {B R : ℕ} [NeZero R] (o t : Fin B → Fin R → ℝ) : ℝ :=
  reconLossEps eps o t

/-- The full quadruple returned by `calculate_loss` (lines 108-149):
total loss, margin loss, reconstruction loss, predicted classes. -/
def calculateLoss {B C D H R : ℕ} [NeZero C] [NeZero R] (lam reg : ℝ)
    (w : DecoderW D H R) (x : Fin B → Fin C → Fin D → ℝ)
    (label : Fin B → Fin C) (t : Fin B → Fin R → ℝ) :
    ℝ × ℝ × ℝ × (Fin B → Fin C) :=
  (marginLoss lam x label + reconLoss (reconstructionOutput w x label) t * reg,
   marginLoss lam x label,
   reconLoss (reconstructionOutput w x label) t,
   pred x)

/-! ## Shape semantics of `squeeze` and `sum(dim=2)`

`class_capsule_output.squeeze()` (`model.py` line 102) and
`capsule_input.squeeze()` (line 114) drop every size-1 dimension; the
norm computation `(capsule_input ** 2).sum(dim=2)` (line 115) requires
the tensor to still have a dimension of index 2. These shape-level
operations are modelled on shape lists. -/

/-- Embeds `torch.Tensor.squeeze()`: removes every dimension of size 1. -/
def squeezeShape (s : List ℕ) : List ℕ := s.filter fun d => d ≠ 1

/-- Modelled from the spec: the class-capsule output of
`SecondaryCapsuleLayer` (defined in `layer.py`, which is not part of the
provided sources) is a capsule tensor of shape
`batch × num_classes × graph_embedding_size` per the data model of §3. -/
def classCapsuleShape (B C D : ℕ) : List ℕ := [B, C, D]

/-- Shape of `class_capsule_output` after the `.squeeze()` on
`model.py` line 102, i.e. the shape handed to `calculate_loss`. -/
def forwardClassCapsuleShape (B C D : ℕ) : List ℕ :=
  squeezeShape (classCapsuleShape B C D)

/-- Embeds `t.sum(dim=2)` is only defined when the tensor has at least three
dimensions. -/
def sumDim2OK (s : List ℕ) : Bool := 3 ≤ s.length

/-- Embeds `calculate_loss` re-squeezes its input (line 114) and then computes
`(capsule_input ** 2).sum(dim=2)` (line 115); this records whether that
reduction is in range for an input of the given shape. -/
def calculateLossShapeOK (s : List ℕ) : Bool := sumDim2OK (squeezeShape s)

/-! ## Spec-side reconstruction loss (refinement target for C3)

These definitions follow the spec's words: split the target dimensions
into a negative set (original value `< 1e-5`) and a positive set (the
complement), take the squared error between decoder output and
normalized target, take the maximum within each set separately, sum the
two maxima, mean over the batch. -/

/-- Maximum of `f` over an index set, `0` for the empty set (matching
`torch.max` of a fully-masked, hence all-zero, row). -/
def setMax {R : ℕ} (s : Finset (Fin R)) (f : Fin R → ℝ) : ℝ :=
  if h : s.Nonempty then s.sup' h f else 0

/-- Dimensions of graph `b` whose original target value is below `1e-5`. -/
def negSet {B R : ℕ} (t : Fin B → Fin R → ℝ) (b : Fin B) : Finset (Fin R) :=
  Finset.univ.filter fun r => t b r < 1e-5

/-- Complement of `negSet`. -/
def posSet {B R : ℕ} (t : Fin B → Fin R → ℝ) (b : Fin B) : Finset (Fin R) :=
  Finset.univ.filter fun r => ¬ t b r < 1e-5

/-- The reconstruction loss as the spec words it: normalize each target
by its per-graph maximum plus epsilon, decode the true-class-masked
capsule through the two-layer ReLU/sigmoid decoder, take the maximum
squared error within the positive and the negative dimension sets
separately, sum the two maxima and average over the batch. -/
def reconLossSpec {B C D H R : ℕ} [NeZero R] (w : DecoderW D H R)
    (x : Fin B → Fin C → Fin D → ℝ) (label : Fin B → Fin C)
    (t : Fin B → Fin R → ℝ) : ℝ :=
  (∑ b,
    (setMax (posSet t b)
        (fun r => (decode w (capsuleMasked x label b) r - t b r / (rowMax (t b) + eps)) ^ 2) +
      setMax (negSet t b)
        (fun r => (decode w (capsuleMasked x label b) r - t b r / (rowMax (t b) + eps)) ^ 2))) / B

/-! ## Concrete inputs used by witnesses and counterexamples -/

/-- A one-graph, one-node batch whose single adjacency entry is `1`. -/
def adjOne : Fin 1 → Fin 1 → Fin 1 → ℝ := fun _ _ _ => 1

/-- Zero attention logits for the one-node batch. -/
def logitOne : Fin 1 → Fin 1 → ℝ := fun _ _ => 0

/-- A one-graph, two-node batch with an all-zero adjacency matrix:
both nodes are invalid. -/
def adjZero : Fin 1 → Fin 2 → Fin 2 → ℝ := fun _ _ _ => 0

/-- Zero attention logits for the two-node batch. -/
def logitZero : Fin 1 → Fin 2 → ℝ := fun _ _ => 0

/-- A one-graph, two-node batch with edge weight `1/2` between the two
nodes (entry `> 0` iff edge present, but not 0/1-valued). -/
def adjHalf : Fin 1 → Fin 2 → Fin 2 → ℝ := fun _ i j => if i = j then 0 else 1 / 2

/-- A `1 × 1 × 1` class-capsule tensor with the single entry `1`. -/
def capsOne : Fin 1 → Fin 1 → Fin 1 → ℝ := fun _ _ _ => 1

/-- The label of the single graph is class `0`. -/
def labelOne : Fin 1 → Fin 1 := fun _ => 0

/-- An all-zero decoder (weights and biases `0`). -/
def decOne : DecoderW 1 1 1 :=
  ⟨fun _ _ => 0, fun _ => 0, fun _ _ => 0, fun _ => 0⟩

/-- A `1 × 1` reconstruction target with the single entry `1`. -/
def tgtOne : Fin 1 → Fin 1 → ℝ := fun _ _ => 1

/-- A `1 × 1` all-zero decoder-output tensor. -/
def outZero : Fin 1 → Fin 1 → ℝ := fun _ _ => 0

/-! ## Helper lemmas -/

section MaskLemmas

variable {N : ℕ} [NeZero N]

lemma le_rowMax (f : Fin N → ℝ) (i : Fin N) : f i ≤ rowMax f :=
  Finset.le_sup' f (Finset.mem_univ i)

lemma rowMax_le (f : Fin N → ℝ) {a : ℝ} (h : ∀ i, f i ≤ a) : rowMax f ≤ a :=
  Finset.sup'_le _ _ fun i _ => h i

lemma rowMax_const (a : ℝ) : rowMax (fun _ : Fin N => a) = a :=
  Finset.sup'_const _ a

lemma rowMax_nonneg {f : Fin N → ℝ} (hf : ∀ i, 0 ≤ f i) : 0 ≤ rowMax f := by
  obtain ⟨i⟩ : Nonempty (Fin N) := inferInstance
  exact le_trans (hf i) (le_rowMax f i)

lemma rowMax_eq_zero {f : Fin N → ℝ} (hf : ∀ i, f i = 0) : rowMax f = 0 := by
  have h : f = fun _ => (0 : ℝ) := funext hf
  rw [h, rowMax_const]

lemma rowMax_fin2 (f : Fin 2 → ℝ) : rowMax f = max (f 0) (f 1) := by
  apply le_antisymm
  · refine rowMax_le f fun i => ?_
    fin_cases i
    · exact le_max_left _ _
    · exact le_max_right _ _
  · exact max_le (le_rowMax f 0) (le_rowMax f 1)

lemma rowMax_mul_left {c : ℝ} (hc : 0 ≤ c) (f : Fin N → ℝ) :
    rowMax (fun i => c * f i) = c * rowMax f := by
  apply le_antisymm
  · exact rowMax_le _ fun i => mul_le_mul_of_nonneg_left (le_rowMax f i) hc
  · obtain ⟨i, -, hi⟩ := Finset.exists_mem_eq_sup' (Finset.univ_nonempty) f
    have h : rowMax f = f i := hi
    rw [h]
    exact le_rowMax (fun j => c * f j) i

end MaskLemmas

section LossLemmas

variable {B C D H R : ℕ}

lemma Tc_nonneg (label : Fin B → Fin C) (b : Fin B) (c : Fin C) :
    0 ≤ Tc label b c := by
  rw [Tc]; split <;> norm_num

lemma Tc_le_one (label : Fin B → Fin C) (b : Fin B) (c : Fin C) :
    Tc label b c ≤ 1 := by
  rw [Tc]; split <;> norm_num

lemma maxL_nonneg (x : Fin B → Fin C → Fin D → ℝ) (b : Fin B) (c : Fin C) :
    0 ≤ maxL x b c := by
  rw [maxL]; positivity

lemma maxR_nonneg (x : Fin B → Fin C → Fin D → ℝ) (b : Fin B) (c : Fin C) :
    0 ≤ maxR x b c := by
  rw [maxR]; positivity

lemma Lc_term_nonneg {lam : ℝ} (hlam : 0 ≤ lam) (x : Fin B → Fin C → Fin D → ℝ)
    (label : Fin B → Fin C) (b : Fin B) (c : Fin C) :
    0 ≤ Tc label b c * maxL x b c + lam * (1 - Tc label b c) * maxR x b c := by
  have h1 := Tc_nonneg label b c
  have h2 := Tc_le_one label b c
  have h3 := maxL_nonneg x b c
  have h4 := maxR_nonneg x b c
  have h5 : 0 ≤ 1 - Tc label b c := by linarith
  positivity

lemma Lc_nonneg {lam : ℝ} (hlam : 0 ≤ lam) (x : Fin B → Fin C → Fin D → ℝ)
    (label : Fin B → Fin C) (b : Fin B) : 0 ≤ Lc lam x label b := by
  rw [Lc]
  exact Finset.sum_nonneg fun c _ => Lc_term_nonneg hlam x label b c

lemma marginLoss_nonneg {lam : ℝ} (hlam : 0 ≤ lam) (x : Fin B → Fin C → Fin D → ℝ)
    (label : Fin B → Fin C) : 0 ≤ marginLoss lam x label := by
  rw [marginLoss]
  exact div_nonneg (Finset.sum_nonneg fun b _ => Lc_nonneg hlam x label b)
    (Nat.cast_nonneg B)

lemma negInd_nonneg (t : Fin B → Fin R → ℝ) (b : Fin B) (r : Fin R) :
    0 ≤ negInd t b r := by
  rw [negInd]; split <;> norm_num

lemma posInd_nonneg (t : Fin B → Fin R → ℝ) (b : Fin B) (r : Fin R) :
    0 ≤ posInd t b r := by
  rw [posInd, negInd]; split <;> norm_num

variable [NeZero R]

lemma reconDiff_nonneg (e : ℝ) (o t : Fin B → Fin R → ℝ) (b : Fin B) (r : Fin R) :
    0 ≤ reconDiff e o t b r := by
  rw [reconDiff]; positivity

lemma negLossB_nonneg (e : ℝ) (o t : Fin B → Fin R → ℝ) (b : Fin B) :
    0 ≤ negLossB e o t b := by
  rw [negLossB]
  exact rowMax_nonneg fun r =>
    mul_nonneg (reconDiff_nonneg e o t b r) (negInd_nonneg t b r)

lemma posLossB_nonneg (e : ℝ) (o t : Fin B → Fin R → ℝ) (b : Fin B) :
    0 ≤ posLossB e o t b := by
  rw [posLossB]
  exact rowMax_nonneg fun r =>
    mul_nonneg (reconDiff_nonneg e o t b r) (posInd_nonneg t b r)

lemma reconLossEps_nonneg (e : ℝ) (o t : Fin B → Fin R → ℝ) :
    0 ≤ reconLossEps e o t := by
  rw [reconLossEps]
  exact div_nonneg
    (Finset.sum_nonneg fun b _ =>
      add_nonneg (posLossB_nonneg e o t b) (negLossB_nonneg e o t b))
    (Nat.cast_nonneg B)

/-- Taking the row maximum of a nonnegative function masked by a 0/1
indicator equals the maximum of the function over the indicated set
(with the empty-set maximum read as 0). -/
lemma rowMax_mul_indicator (p : Fin R → Prop) [DecidablePred p] (f : Fin R → ℝ)
    (hf : ∀ r, 0 ≤ f r) :
    rowMax (fun r => f r * if p r then (1 : ℝ) else 0) =
      setMax (Finset.univ.filter fun r => p r) f := by
  rw [setMax]
  split
  · next hne =>
    obtain ⟨r₀, hr₀⟩ := hne
    apply le_antisymm
    · refine rowMax_le _ fun r => ?_
      by_cases hp : p r
      · simp only [hp, if_pos, mul_one]
        exact Finset.le_sup' f (Finset.mem_filter.2 ⟨Finset.mem_univ r, hp⟩)
      · simp only [hp, if_neg, not_false_iff, mul_zero]
        exact le_trans (hf r₀) (Finset.le_sup' f hr₀)
    · refine Finset.sup'_le _ _ fun r hr => ?_
      have hp : p r := (Finset.mem_filter.1 hr).2
      have h : f r = f r * if p r then (1 : ℝ) else 0 := by
        rw [if_pos hp, mul_one]
      rw [h]
      exact le_rowMax (fun r => f r * if p r then (1 : ℝ) else 0) r
  · next hne =>
    apply rowMax_eq_zero
    intro r
    have hp : ¬ p r := fun hp =>
      hne ⟨r, Finset.mem_filter.2 ⟨Finset.mem_univ r, hp⟩⟩
    rw [if_neg hp, mul_zero]

/-- The positive-set branch of the reconstruction loss, rewritten from
the indicator-masked maximum of the source to a maximum over `posSet`. -/
lemma posLossB_eq_setMax (e : ℝ) (o t : Fin B → Fin R → ℝ) (b : Fin B) :
    posLossB e o t b = setMax (posSet t b) fun r => reconDiff e o t b r := by
  rw [posLossB]
  have h : (fun r => reconDiff e o t b r * posInd t b r) =
      fun r => reconDiff e o t b r * if ¬ t b r < 1e-5 then (1 : ℝ) else 0 := by
    funext r
    rw [posInd, negInd]
    by_cases h : t b r < 1e-5 <;> simp [h]
  rw [h]
  exact rowMax_mul_indicator (fun r => ¬ t b r < 1e-5)
    (fun r => reconDiff e o t b r) (reconDiff_nonneg e o t b)

/-- The negative-set branch of the reconstruction loss, rewritten from
the indicator-masked maximum of the source to a maximum over `negSet`. -/
lemma negLossB_eq_setMax (e : ℝ) (o t : Fin B → Fin R → ℝ) (b : Fin B) :
    negLossB e o t b = setMax (negSet t b) fun r => reconDiff e o t b r := by
  rw [negLossB]
  have h : (fun r => reconDiff e o t b r * negInd t b r) =
      fun r => reconDiff e o t b r * if t b r < 1e-5 then (1 : ℝ) else 0 := by
    funext r
    rw [negInd]
  rw [h]
  exact rowMax_mul_indicator (fun r => t b r < 1e-5)
    (fun r => reconDiff e o t b r) (reconDiff_nonneg e o t b)

end LossLemmas

/-! ## Claim theorems -/

/-- C1: for every batch in which each graph has at least one valid node,
the masked softmax of `model.py` line 96 is well defined (no NaN row),
assigns weight exactly 0 to every node whose validity mask is 0, and its
weights over the valid nodes of each graph sum to 1. -/
theorem masked_softmax_valid (B N : ℕ) [NeZero N]
    (adj : Fin B → Fin N → Fin N → ℝ) (l : Fin B → Fin N → ℝ)
    (h : ∀ b, ∃ i, masks adj b i ≠ 0) (b : Fin B) :
    ∃ w, maskedSoftmax (masks adj b) (l b) = some w ∧
      (∀ i, masks adj b i = 0 → w i = 0) ∧
      ∑ i in validSet (masks adj b), w i = 1 := by
  obtain ⟨i0, hi0⟩ := h b
  have hmem : i0 ∈ validSet (masks adj b) := by
    rw [validSet, Finset.mem_filter]
    exact ⟨Finset.mem_univ i0, hi0⟩
  have hpos : 0 < softmaxDenom (masks adj b) (l b) := by
    rw [softmaxDenom]
    exact Finset.sum_pos (fun i _ => Real.exp_pos _) ⟨i0, hmem⟩
  have hne := ne_of_gt hpos
  refine ⟨fun i => if masks adj b i = 0 then 0
      else Real.exp (l b i) / softmaxDenom (masks adj b) (l b), ?_, ?_, ?_⟩
  · rw [maskedSoftmax, if_neg hne]
  · intro i hi
    show (if masks adj b i = 0 then (0 : ℝ)
      else Real.exp (l b i) / softmaxDenom (masks adj b) (l b)) = 0
    rw [if_pos hi]
  · have hcongr : ∀ i ∈ validSet (masks adj b),
        (if masks adj b i = 0 then (0 : ℝ)
          else Real.exp (l b i) / softmaxDenom (masks adj b) (l b)) =
          Real.exp (l b i) / softmaxDenom (masks adj b) (l b) := by
      intro i hi
      rw [validSet, Finset.mem_filter] at hi
      rw [if_neg hi.2]
    have hsum : ∑ i in validSet (masks adj b),
        (if masks adj b i = 0 then (0 : ℝ)
          else Real.exp (l b i) / softmaxDenom (masks adj b) (l b)) = 1 := by
      rw [Finset.sum_congr rfl hcongr, ← Finset.sum_div]
      show softmaxDenom (masks adj b) (l b) / softmaxDenom (masks adj b) (l b) = 1
      exact div_self hne
    exact hsum

/-- Witness for C1 at the concrete one-node batch `adjOne` with zero
logits. -/
theorem masked_softmax_valid_witness :
    (∀ b : Fin 1, ∃ i, masks adjOne b i ≠ 0) ∧
    ∃ w, maskedSoftmax (masks adjOne 0) (logitOne 0) = some w ∧
      (∀ i, masks adjOne 0 i = 0 → w i = 0) ∧
      ∑ i in validSet (masks adjOne 0), w i = 1 := by
  have hh : ∀ b : Fin 1, ∃ i, masks adjOne b i ≠ 0 := by
    intro b
    refine ⟨0, ?_⟩
    have h : masks adjOne b 0 = 1 := by
      rw [masks]
      have h1 : adjOne b 0 = fun _ => (1 : ℝ) := rfl
      rw [h1, rowMax_const]
    rw [h]
    norm_num
  exact ⟨hh, masked_softmax_valid 1 1 adjOne logitOne hh 0⟩

/-- C7: for a graph with zero valid nodes (all-zero adjacency), every
mask entry is 0, so every logit is filled with `-inf` and the softmax of
`model.py` line 96 is the NaN row `0/0` (modelled by `none`): the code
does not clamp the attention output of such a graph to zero. -/
theorem zero_valid_nodes_softmax_nan :
    maskedSoftmax (masks adjZero 0) (logitZero 0) = none := by
  have hm : ∀ i, masks adjZero 0 i = 0 := by
    intro i
    rw [masks]
    have h : adjZero 0 i = fun _ => (0 : ℝ) := rfl
    rw [h, rowMax_const]
  have hv : validSet (masks adjZero 0) = ∅ := by
    rw [validSet]
    refine Finset.filter_false_of_mem fun i _ => ?_
    rw [hm i]
    simp
  have hd : softmaxDenom (masks adjZero 0) (logitZero 0) = 0 := by
    rw [softmaxDenom, hv, Finset.sum_empty]
  rw [maskedSoftmax, if_pos hd]

/-- C8: at batch size 1 the `squeeze()` on `model.py` line 102 drops the
batch dimension of the `1 × 2 × D` class-capsule tensor, so the norm
reduction `(capsule_input ** 2).sum(dim=2)` on line 115 is out of range
whatever the capsule dimension `D` is: `calculate_loss` is not
shape-correct for the batch-size-1, two-class scenario. -/
theorem batch_one_squeeze_shape_error (D : ℕ) :
    calculateLossShapeOK (forwardClassCapsuleShape 1 2 D) = false := by
  by_cases hD : D = 1 <;>
    simp [calculateLossShapeOK, forwardClassCapsuleShape, classCapsuleShape,
      squeezeShape, sumDim2OK, List.filter, hD]

/-- C2: the margin loss computed by `calculate_loss` equals the mean
over the batch of the per-graph sum over classes of
`T_c * max(0, 0.9 - v_mag)^2 + lambda * (1 - T_c) * max(0, v_mag - 0.1)^2`
with `T_c` the one-hot encoding of the label. -/
theorem margin_loss_formula (B C D : ℕ) (lam : ℝ)
    (x : Fin B → Fin C → Fin D → ℝ) (label : Fin B → Fin C) :
    marginLoss lam x label =
      (∑ b, ∑ c, (Tc label b c * max 0 ((0.9 : ℝ) - vMag x b c) ^ 2 +
        lam * (1 - Tc label b c) * max 0 (vMag x b c - (0.1 : ℝ)) ^ 2)) / B := by
  rw [marginLoss]
  congr 1
  refine Finset.sum_congr rfl fun b _ => ?_
  rw [Lc]
  refine Finset.sum_congr rfl fun c _ => ?_
  rw [maxL, maxR, max_comm ((0.9 : ℝ) - vMag x b c) 0,
    max_comm (vMag x b c - (0.1 : ℝ)) 0]

/-- C3: the reconstruction loss of `calculate_loss` (lines 130-146)
equals the spec's description `reconLossSpec`: normalize targets by the
per-graph maximum plus epsilon, decode the true-class-masked capsule
through the two-layer ReLU/sigmoid decoder, take the maximum squared
error within the positive and the negative target-dimension sets
separately, sum the two maxima, and average over the batch. -/
theorem recon_loss_matches_spec (B C D H R : ℕ) [NeZero R]
    (w : DecoderW D H R) (x : Fin B → Fin C → Fin D → ℝ)
    (label : Fin B → Fin C) (t : Fin B → Fin R → ℝ) :
    reconLoss (reconstructionOutput w x label) t = reconLossSpec w x label t := by
  rw [reconLoss, reconLossEps, reconLossSpec]
  congr 1
  refine Finset.sum_congr rfl fun b _ => ?_
  rw [posLossB_eq_setMax, negLossB_eq_setMax]
  rfl

/-- Witness for C3 at a concrete batch (all dimensions 1, zero decoder,
target `[1]`). -/
theorem recon_loss_matches_spec_witness :
    reconLoss (reconstructionOutput decOne capsOne labelOne) tgtOne =
      reconLossSpec decOne capsOne labelOne tgtOne :=
  recon_loss_matches_spec 1 1 1 1 1 decOne capsOne labelOne tgtOne

/-- Counterexample for C4: for the weighted adjacency `adjHalf` whose
edge entries are `1/2 > 0`, `number_of_nodes` (the sum of row maxima) is
`1`, while the graph has `2` valid nodes. -/
theorem node_count_counterexample :
    numberOfNodes adjHalf 0 ≠ ((validSet (masks adjHalf 0)).card : ℝ) := by
  have h0 : masks adjHalf 0 0 = 1 / 2 := by
    rw [masks, rowMax_fin2]
    have e0 : adjHalf 0 0 0 = 0 := by norm_num [adjHalf]
    have e1 : adjHalf 0 0 1 = 1 / 2 := by norm_num [adjHalf]
    rw [e0, e1]
    exact max_eq_right (by norm_num)
  have h1 : masks adjHalf 0 1 = 1 / 2 := by
    rw [masks, rowMax_fin2]
    have e0 : adjHalf 0 1 0 = 1 / 2 := by norm_num [adjHalf]
    have e1 : adjHalf 0 1 1 = 0 := by norm_num [adjHalf]
    rw [e0, e1]
    exact max_eq_left (by norm_num)
  have hn : numberOfNodes adjHalf 0 = 1 := by
    rw [numberOfNodes, Fin.sum_univ_two, h0, h1]
    norm_num
  have hv : validSet (masks adjHalf 0) = Finset.univ := by
    apply Finset.eq_univ_of_forall
    intro i
    rw [validSet, Finset.mem_filter]
    refine ⟨Finset.mem_univ i, ?_⟩
    fin_cases i
    · show masks adjHalf 0 0 ≠ 0
      rw [h0]
      norm_num
    · show masks adjHalf 0 1 ≠ 0
      rw [h1]
      norm_num
  rw [hn, hv, Finset.card_univ]
  norm_num

/-- C4 (amended): for an entrywise-nonnegative adjacency, a node is
treated as valid iff its adjacency row contains a nonzero entry; and
`number_of_nodes` (the sum of the per-row maxima) equals the count of
valid nodes when the adjacency is 0/1-valued — but not for general
positive edge weights, as `node_count_counterexample` shows. -/
theorem node_validity_and_count (B N : ℕ) [NeZero N]
    (adj : Fin B → Fin N → Fin N → ℝ) (hnn : ∀ b i j, 0 ≤ adj b i j) :
    (∀ b i, masks adj b i ≠ 0 ↔ ∃ j, adj b i j ≠ 0) ∧
    ((∀ b i j, adj b i j = 0 ∨ adj b i j = 1) →
      ∀ b, numberOfNodes adj b = ((validSet (masks adj b)).card : ℝ)) := by
  constructor
  · intro b i
    constructor
    · intro hm
      by_contra hex
      push_neg at hex
      exact hm (rowMax_eq_zero hex)
    · rintro ⟨j, hj⟩
      have hlt : 0 < adj b i j := lt_of_le_of_ne (hnn b i j) (Ne.symm hj)
      have hle : adj b i j ≤ masks adj b i := le_rowMax (adj b i) j
      exact ne_of_gt (lt_of_lt_of_le hlt hle)
  · intro h01 b
    have hm : ∀ i, masks adj b i = 0 ∨ masks adj b i = 1 := by
      intro i
      by_cases hone : ∃ j, adj b i j = 1
      · right
        obtain ⟨j, hj⟩ := hone
        apply le_antisymm
        · refine rowMax_le _ fun j' => ?_
          rcases h01 b i j' with h | h <;> simp [h]
        · calc (1 : ℝ) = adj b i j := hj.symm
          _ ≤ _ := le_rowMax (adj b i) j
      · left
        apply rowMax_eq_zero
        intro j
        rcases h01 b i j with h | h
        · exact h
        · exact absurd ⟨j, h⟩ hone
    have hcongr : ∀ i ∈ Finset.univ,
        masks adj b i = if masks adj b i ≠ 0 then (1 : ℝ) else 0 := by
      intro i _
      rcases hm i with h | h <;> rw [h] <;> norm_num
    rw [numberOfNodes, Finset.sum_congr rfl hcongr, Finset.sum_boole, validSet]

/-- Witness for C4 (amended) at the concrete all-ones adjacency. -/
theorem node_validity_and_count_witness :
    (∀ (b i j : Fin 1), (0 : ℝ) ≤ adjOne b i j) ∧
    ((∀ b i, masks adjOne b i ≠ 0 ↔ ∃ j, adjOne b i j ≠ 0) ∧
      ((∀ b i j, adjOne b i j = 0 ∨ adjOne b i j = 1) →
        ∀ b, numberOfNodes adjOne b = ((validSet (masks adjOne b)).card : ℝ))) := by
  have hnn : ∀ (b i j : Fin 1), (0 : ℝ) ≤ adjOne b i j := by
    intro b i j
    norm_num [adjOne]
  exact ⟨hnn, node_validity_and_count 1 1 adjOne hnn⟩

/-- C5: with a positive `lambda_val`, the margin loss returned by
`calculate_loss` is 0 only when, for every graph in the batch, the
true-class capsule norm is at least 0.9 and every other class capsule
norm is at most 0.1. -/
theorem margin_loss_zero_necessary (B C D : ℕ) (lam : ℝ) (hlam : 0 < lam)
    (x : Fin B → Fin C → Fin D → ℝ) (label : Fin B → Fin C)
    (h0 : marginLoss lam x label = 0) (b : Fin B) :
    0.9 ≤ vMag x b (label b) ∧ ∀ c, c ≠ label b → vMag x b c ≤ 0.1 := by
  have hlam' : 0 ≤ lam := le_of_lt hlam
  have hB : (B : ℝ) ≠ 0 := Nat.cast_ne_zero.2 b.pos.ne'
  have hsum : ∑ b', Lc lam x label b' = 0 := by
    rw [marginLoss, div_eq_zero_iff] at h0
    rcases h0 with h | h
    · exact h
    · exact absurd h hB
  have hLc : Lc lam x label b = 0 :=
    (Finset.sum_eq_zero_iff_of_nonneg fun b' _ => Lc_nonneg hlam' x label b').1
      hsum b (Finset.mem_univ b)
  rw [Lc] at hLc
  have hterm : ∀ c, Tc label b c * maxL x b c +
      lam * (1 - Tc label b c) * maxR x b c = 0 := by
    intro c
    exact (Finset.sum_eq_zero_iff_of_nonneg fun c' _ =>
      Lc_term_nonneg hlam' x label b c').1 hLc c (Finset.mem_univ c)
  constructor
  · have h := hterm (label b)
    have hTc : Tc label b (label b) = 1 := by rw [Tc, if_pos rfl]
    rw [hTc] at h
    have hL : maxL x b (label b) = 0 := by
      have h1 : (1 : ℝ) - 1 = 0 := by norm_num
      rw [h1, mul_zero, zero_mul, add_zero, one_mul] at h
      exact h
    rw [maxL, pow_eq_zero_iff (two_ne_zero)] at hL
    have hle := le_max_left ((0.9 : ℝ) - vMag x b (label b)) 0
    rw [hL] at hle
    linarith
  · intro c hc
    have h := hterm c
    have hTc : Tc label b c = 0 := by rw [Tc, if_neg hc]
    rw [hTc] at h
    have hR : lam * maxR x b c = 0 := by
      have h' : 0 * maxL x b c + lam * 1 * maxR x b c = lam * maxR x b c := by
        ring
      rw [sub_zero] at h
      rw [h'] at h
      exact h
    have hR' : maxR x b c = 0 := by
      rcases mul_eq_zero.1 hR with h' | h'
      · exact absurd h' (ne_of_gt hlam)
      · exact h'
    rw [maxR, pow_eq_zero_iff (two_ne_zero)] at hR'
    have hle := le_max_left (vMag x b c - (0.1 : ℝ)) 0
    rw [hR'] at hle
    linarith

/-- Witness for C5: a one-class batch whose single capsule has norm 1,
so the margin loss is 0 and the conclusion holds. -/
theorem margin_loss_zero_necessary_witness :
    (0 < (1 : ℝ)) ∧ marginLoss 1 capsOne labelOne = 0 ∧
    (0.9 ≤ vMag capsOne 0 (labelOne 0) ∧
      ∀ c, c ≠ labelOne 0 → vMag capsOne 0 c ≤ 0.1) := by
  have hv : vMag capsOne 0 0 = 1 := by
    rw [vMag, Fin.sum_univ_one]
    norm_num [capsOne]
  have hm : marginLoss 1 capsOne labelOne = 0 := by
    have hTc : Tc labelOne 0 0 = 1 := by
      rw [Tc, if_pos]
      rfl
    have hL : maxL capsOne 0 0 = 0 := by
      rw [maxL, hv, max_eq_right (by norm_num : (0.9 : ℝ) - 1 ≤ 0)]
      norm_num
    rw [marginLoss, Fin.sum_univ_one, Lc, Fin.sum_univ_one, hTc, hL]
    norm_num
  exact ⟨one_pos, hm,
    margin_loss_zero_necessary 1 1 1 1 one_pos capsOne labelOne hm 0⟩

/-- Counterexample for C6: with decoder output `[0]` held fixed and
target `[1]`, doubling the target changes the reconstruction loss,
because the epsilon added to the per-graph maximum in the normalization
does not rescale with the target. -/
theorem recon_loss_not_scale_invariant :
    reconLossEps eps outZero (fun b r => 2 * tgtOne b r) ≠
      reconLossEps eps outZero tgtOne := by
  have hconst : ∀ v : ℝ, ¬ v < 1e-5 →
      reconLossEps eps outZero (fun _ _ => v : Fin 1 → Fin 1 → ℝ) =
        (v / (v + eps)) ^ 2 := by
    intro v hv
    have hdiff : ∀ r : Fin 1,
        reconDiff eps outZero (fun _ _ => v : Fin 1 → Fin 1 → ℝ) 0 r =
          (v / (v + eps)) ^ 2 := by
      intro r
      rw [reconDiff, reconValue]
      have h1 : reconMax (fun _ _ => v : Fin 1 → Fin 1 → ℝ) 0 = v := by
        rw [reconMax]
        exact rowMax_const v
      have h2 : outZero 0 r = 0 := rfl
      rw [h1, h2]
      ring
    have hpos : posLossB eps outZero (fun _ _ => v : Fin 1 → Fin 1 → ℝ) 0 =
        (v / (v + eps)) ^ 2 := by
      rw [posLossB]
      have hfun : (fun r => reconDiff eps outZero (fun _ _ => v : Fin 1 → Fin 1 → ℝ) 0 r *
          posInd (fun _ _ => v : Fin 1 → Fin 1 → ℝ) 0 r) =
          fun _ : Fin 1 => (v / (v + eps)) ^ 2 := by
        funext r
        rw [hdiff r, posInd, negInd, if_neg hv]
        ring
      rw [hfun, rowMax_const]
    have hneg : negLossB eps outZero (fun _ _ => v : Fin 1 → Fin 1 → ℝ) 0 = 0 := by
      rw [negLossB]
      have hfun : (fun r => reconDiff eps outZero (fun _ _ => v : Fin 1 → Fin 1 → ℝ) 0 r *
          negInd (fun _ _ => v : Fin 1 → Fin 1 → ℝ) 0 r) = fun _ : Fin 1 => (0 : ℝ) := by
        funext r
        rw [negInd, if_neg hv, mul_zero]
      rw [hfun, rowMax_const]
    rw [reconLossEps, Fin.sum_univ_one, hpos, hneg]
    norm_num
  have h2 : (fun b r => 2 * tgtOne b r) = (fun _ _ => (2 : ℝ)) := by
    funext b r
    rw [tgtOne]
    norm_num
  have h1 : tgtOne = (fun _ _ => (1 : ℝ)) := rfl
  rw [h2, h1, hconst 2 (by norm_num), hconst 1 (by norm_num), eps]
  norm_num

/-- C6 (amended): for every positive scalar `c`, the reconstruction loss
for target `c * r` equals the loss for target `r` computed with epsilon
`eps / c` in place of `eps`, provided no target entry crosses the `1e-5`
negative-indicator threshold under the rescaling; exact invariance
fails because neither the epsilon in the normalization nor the indicator
threshold rescales. -/
theorem recon_loss_rescale (B R : ℕ) [NeZero R] (c : ℝ) (hc : 0 < c)
    (o t : Fin B → Fin R → ℝ)
    (hth : ∀ b r, (c * t b r < 1e-5 ↔ t b r < 1e-5)) :
    reconLossEps eps o (fun b r => c * t b r) = reconLossEps (eps / c) o t := by
  have hc' : c ≠ 0 := ne_of_gt hc
  have hind : ∀ b r, negInd (fun b r => c * t b r) b r = negInd t b r := by
    intro b r
    rw [negInd, negInd]
    by_cases h : t b r < 1e-5
    · rw [if_pos ((hth b r).2 h), if_pos h]
    · rw [if_neg (fun h' => h ((hth b r).1 h')), if_neg h]
  have hval : ∀ b r, reconValue eps (fun b r => c * t b r) b r =
      reconValue (eps / c) t b r := by
    intro b r
    simp only [reconValue, reconMax]
    rw [rowMax_mul_left (le_of_lt hc) (t b)]
    have hden : c * rowMax (t b) + eps = c * (rowMax (t b) + eps / c) := by
      rw [mul_add, mul_div_cancel₀ _ hc']
    rw [hden, mul_div_mul_left _ _ hc']
  have hdiff : ∀ b r, reconDiff eps o (fun b r => c * t b r) b r =
      reconDiff (eps / c) o t b r := by
    intro b r
    rw [reconDiff, reconDiff, hval b r]
  rw [reconLossEps, reconLossEps]
  congr 1
  refine Finset.sum_congr rfl fun b _ => ?_
  congr 1
  · rw [posLossB, posLossB]
    congr 1
    funext r
    rw [hdiff b r, posInd, posInd, hind b r]
  · rw [negLossB, negLossB]
    congr 1
    funext r
    rw [hdiff b r, hind b r]

/-- Witness for C6 (amended) at target `[1]`, scale `2`, decoder output
`[0]`. -/
theorem recon_loss_rescale_witness :
    (0 < (2 : ℝ)) ∧
    (∀ (b r : Fin 1), ((2 : ℝ) * tgtOne b r < 1e-5 ↔ tgtOne b r < 1e-5)) ∧
    reconLossEps eps outZero (fun b r => 2 * tgtOne b r) =
      reconLossEps (eps / 2) outZero tgtOne := by
  have hth : ∀ (b r : Fin 1), ((2 : ℝ) * tgtOne b r < 1e-5 ↔ tgtOne b r < 1e-5) := by
    intro b r
    norm_num [tgtOne]
  exact ⟨by norm_num, hth,
    recon_loss_rescale 1 1 2 (by norm_num) outZero tgtOne hth⟩

/-- C9: `calculate_loss` is deterministic — two runs on identical
capsule input, label, reconstruction target, decoder weights and
configuration return identical total loss, margin loss, reconstruction
loss and predicted class indices. -/
theorem calculate_loss_deterministic (B C D H R : ℕ) [NeZero C] [NeZero R]
    (lam reg lam' reg' : ℝ) (w w' : DecoderW D H R)
    (x x' : Fin B → Fin C → Fin D → ℝ) (label label' : Fin B → Fin C)
    (t t' : Fin B → Fin R → ℝ)
    (h1 : lam = lam') (h2 : reg = reg') (h3 : w = w') (h4 : x = x')
    (h5 : label = label') (h6 : t = t') :
    calculateLoss lam reg w x label t = calculateLoss lam' reg' w' x' label' t' := by
  rw [h1, h2, h3, h4, h5, h6]

/-- Witness for C9 at a concrete batch. -/
theorem calculate_loss_deterministic_witness :
    calculateLoss 1 1 decOne capsOne labelOne tgtOne =
      calculateLoss 1 1 decOne capsOne labelOne tgtOne :=
  calculate_loss_deterministic 1 1 1 1 1 1 1 1 1 decOne decOne capsOne capsOne
    labelOne labelOne tgtOne tgtOne rfl rfl rfl rfl rfl rfl

/-- C10: with `lambda_val ≥ 0` and `reg_scale ≥ 0`, the margin loss, the
reconstruction loss, and the total loss
`margin_loss + reconstruction_loss * reg_scale` returned by
`calculate_loss` are all nonnegative. -/
theorem losses_nonneg (B C D H R : ℕ) [NeZero C] [NeZero R]
    (lam reg : ℝ) (hlam : 0 ≤ lam) (hreg : 0 ≤ reg)
    (w : DecoderW D H R) (x : Fin B → Fin C → Fin D → ℝ)
    (label : Fin B → Fin C) (t : Fin B → Fin R → ℝ) :
    0 ≤ (calculateLoss lam reg w x label t).2.1 ∧
    0 ≤ (calculateLoss lam reg w x label t).2.2.1 ∧
    0 ≤ (calculateLoss lam reg w x label t).1 := by
  have hm := marginLoss_nonneg hlam x label
  have hr : 0 ≤ reconLoss (reconstructionOutput w x label) t := by
    rw [reconLoss]
    exact reconLossEps_nonneg eps _ t
  exact ⟨hm, hr, add_nonneg hm (mul_nonneg hr hreg)⟩

/-- Witness for C10 at a concrete batch with `lambda_val = reg_scale = 1`. -/
theorem losses_nonneg_witness :
    ((0 : ℝ) ≤ 1) ∧ ((0 : ℝ) ≤ 1) ∧
    (0 ≤ (calculateLoss 1 1 decOne capsOne labelOne tgtOne).2.1 ∧
      0 ≤ (calculateLoss 1 1 decOne capsOne labelOne tgtOne).2.2.1 ∧
      0 ≤ (calculateLoss 1 1 decOne capsOne labelOne tgtOne).1) :=
  ⟨by norm_num, by norm_num,
    losses_nonneg 1 1 1 1 1 1 1 (by norm_num) (by norm_num)
      decOne capsOne labelOne tgtOne⟩

end GraphCaps
